import Mathlib

/-!
Verification of the rule-22 elementary-cellular-automaton repository.

Shallow embedding conventions:
- JavaScript numbers are embedded as integers (Int) where sign matters and as
  Nat where the source only ever produces non-negative values.  All numeric
  inputs reached through the public codec functions are integers in practice
  (query parameters, cell indices); fractional doubles are outside the
  embedding and noted where relevant.  Math.floor is the identity on this
  domain, and Number.isFinite is true for every embedded value.
- Uint8Array values are lists of Nat below 256.  Strings are Lean Strings;
  the characters manipulated by the codec are all ASCII, where a JavaScript
  string's .length agrees with the length of the Lean character list.
- The platform primitives btoa and atob (not part of the repository) are
  modelled after RFC 4648 base64 and the WHATWG forgiving-base64 decoder
  that browsers implement: ASCII whitespace is stripped, then trailing
  padding, a remainder-1 length or a character outside the alphabet fails,
  and leftover bits of the final chunk are discarded.
- Fallible code (atob throwing, try/catch returning null) is embedded with
  Option: none is the null / exception-absorbed result.
-/

/-- clampInt from useStarredConfigs.ts: Math.max(min, Math.min(max, Math.floor(value))).
On the integer domain Number.isFinite holds and Math.floor is the identity. -/
def clampInt (value lo hi : Int) : Int :=
  max lo (min hi value)

/-- Insert a value into the list unless already present; models one step of
JavaScript Set insertion (insertion order preserved, duplicates ignored). -/
def addUnique (seen : List Int) (a : Int) : List Int :=
  if a ∈ seen then seen else seen ++ [a]

/-- Collect the distinct elements of a list in first-occurrence order; models
building a JavaScript Set from the list and reading it back. -/
def setFromList (l : List Int) : List Int :=
  l.foldl addUnique []

/-- uniqSortedIndices from useStarredConfigs.ts: keep the finite indices with
0 <= idx < totalItems (Math.floor is the identity on Int), deduplicate via a
Set, and sort ascending with the comparator (a, b) => a - b.  Array sort is
stable and is modelled by insertion sort. -/
def uniqSortedIndices (indices : List Int) (totalItems : Int) : List Int :=
  let inRange := indices.filter fun idx => decide (0 ≤ idx) && decide (idx < totalItems)
  List.insertionSort (· ≤ ·) (setFromList inRange)

/-- Standard base64 alphabet, value to character (RFC 4648 section 4). -/
def base64Char (n : Nat) : Char :=
  if n < 26 then Char.ofNat (65 + n)
  else if n < 52 then Char.ofNat (97 + (n - 26))
  else if n < 62 then Char.ofNat (48 + (n - 52))
  else if n = 62 then '+'
  else '/'

/-- Standard base64 alphabet, character to value; none for characters outside
the alphabet (including the padding character). -/
def base64CharDecode (c : Char) : Option Nat :=
  if 65 ≤ c.toNat ∧ c.toNat ≤ 90 then some (c.toNat - 65)
  else if 97 ≤ c.toNat ∧ c.toNat ≤ 122 then some (26 + (c.toNat - 97))
  else if 48 ≤ c.toNat ∧ c.toNat ≤ 57 then some (52 + (c.toNat - 48))
  else if c = '+' then some 62
  else if c = '/' then some 63
  else none

/-- Modelled platform primitive btoa: RFC 4648 base64 of a byte sequence,
including trailing padding.  Bit operations are expressed through division
and remainder by powers of two. -/
def btoaChars : List Nat → List Char
  | [] => []
  | [b0] =>
    [base64Char (b0 / 4), base64Char (b0 % 4 * 16), '=', '=']
  | [b0, b1] =>
    [base64Char (b0 / 4), base64Char (b0 % 4 * 16 + b1 / 16), base64Char (b1 % 16 * 4), '=']
  | b0 :: b1 :: b2 :: rest =>
    base64Char (b0 / 4) :: base64Char (b0 % 4 * 16 + b1 / 16) ::
      base64Char (b1 % 16 * 4 + b2 / 64) :: base64Char (b2 % 64) :: btoaChars rest

/-- ASCII whitespace in the sense of the WHATWG infra standard (stripped by
the forgiving-base64 decoder behind atob). -/
def isAsciiWs (c : Char) : Bool :=
  c = '\t' || c = '\n' || c = '\x0c' || c = '\r' || c = ' '

/-- Remove one or two trailing padding characters, exactly as the
forgiving-base64 decoder does when the length is a multiple of four. -/
def dropTrailingPad (l : List Char) : List Char :=
  if l.reverse.take 2 = ['=', '='] then (l.reverse.drop 2).reverse
  else if l.reverse.take 1 = ['='] then (l.reverse.drop 1).reverse
  else l

/-- Decode a list of characters to their base64 values; none if any character
is outside the alphabet. -/
def decodeB64Chars : List Char → Option (List Nat)
  | [] => some []
  | c :: rest =>
    match base64CharDecode c, decodeB64Chars rest with
    | some v, some vs => some (v :: vs)
    | _, _ => none

/-- Reassemble bytes from six-bit values, four values to three bytes; a final
chunk of two or three values yields one or two bytes, silently discarding the
leftover low bits (forgiving-base64 semantics).  A final chunk of one value
cannot be reached through atobModel, which rejects remainder-1 lengths. -/
def decodeSextets : List Nat → List Nat
  | a :: b :: c :: d :: rest =>
    (a * 4 + b / 16) :: (b % 16 * 16 + c / 4) :: (c % 4 * 64 + d) :: decodeSextets rest
  | [a, b] => [a * 4 + b / 16]
  | [a, b, c] => [a * 4 + b / 16, b % 16 * 16 + c / 4]
  | _ => []

/-- Final stage of the forgiving-base64 decoder: fail on a remainder-1
length or on any character outside the alphabet, then reassemble bytes. -/
def atobDecodeData (data : List Char) : Option (List Nat) :=
  if data.length % 4 = 1 then none
  else
    match decodeB64Chars data with
    | none => none
    | some sextets => some (decodeSextets sextets)

/-- Modelled platform primitive atob: the WHATWG forgiving-base64 decoder.
Strips ASCII whitespace, removes up to two trailing padding characters when
the length is a multiple of four, fails on a remainder-1 length or on any
character outside the alphabet, then reassembles bytes. -/
def atobModel (chars : List Char) : Option (List Nat) :=
  atobDecodeData
    (if (chars.filter fun c => !(isAsciiWs c)).length % 4 = 0
     then dropTrailingPad (chars.filter fun c => !(isAsciiWs c))
     else chars.filter fun c => !(isAsciiWs c))

/-- URL-safe substitution applied after btoa in base64UrlEncode. -/
def toUrlChar (c : Char) : Char :=
  if c = '+' then '-' else if c = '/' then '_' else c

/-- Reverse URL-safe substitution applied before atob in base64UrlDecode. -/
def fromUrlChar (c : Char) : Char :=
  if c = '-' then '+' else if c = '_' then '/' else c

/-- base64UrlEncode from useStarredConfigs.ts: btoa of the byte string, then
replaceAll of plus with minus, slash with underscore, and removal of every
padding character (the character-wise map plus filter is exactly that). -/
def base64UrlEncode (bytes : List Nat) : String :=
  String.mk (((btoaChars bytes).map toUrlChar).filter fun c => c ≠ '=')

/-- base64UrlDecode from useStarredConfigs.ts: reverse the URL-safe
substitution, restore padding to a multiple of four (the substituted string
has the same length as the input), and run atob; a thrown exception is
absorbed into null, modelled by Option. -/
def base64UrlDecode (s : String) : Option (List Nat) :=
  atobModel (s.data.map fromUrlChar ++ List.replicate ((4 - s.data.length % 4) % 4) '=')

/-- Set the bit for a seed index in the packed byte array: bit (7 - idx % 8)
of byte idx / 8, most-significant-bit-first within each byte.  This is the
loop body of encodeSeedBitset. -/
def setSeedBit (bytes : List Nat) (idx : Nat) : List Nat :=
  bytes.set (idx / 8) (bytes.getD (idx / 8) 0 ||| 1 <<< (7 - idx % 8))

/-- Read the packed bit for an index, exactly as the decodeSeedBitset loop
does: a byte index beyond the payload reads as zero. -/
def getSeedBit (bytes : List Nat) (idx : Nat) : Nat :=
  bytes.getD (idx / 8) 0 >>> (7 - idx % 8) &&& 1

/-- encodeSeedBitset from useStarredConfigs.ts.  Math.ceil(safeTotal / 8) is
(safeTotal + 7) / 8 on positive integers; the clamped total is at least 1 so
Int.toNat is faithful. -/
def encodeSeedBitset (totalItems : Int) (seedIndices : List Int) : String :=
  let safeTotal := clampInt totalItems 1 300
  let indices := uniqSortedIndices seedIndices safeTotal
  let byteLen := (safeTotal.toNat + 7) / 8
  let bytes := indices.foldl (fun bs idx => setSeedBit bs idx.toNat) (List.replicate byteLen 0)
  base64UrlEncode bytes

/-- decodeSeedBitset from useStarredConfigs.ts: null propagates from the
base64 decoder, otherwise every index below the clamped total whose packed
bit is set is emitted in ascending order. -/
def decodeSeedBitset (totalItems : Int) (encoded : String) : Option (List Int) :=
  let safeTotal := clampInt totalItems 1 300
  match base64UrlDecode encoded with
  | none => none
  | some bytes =>
    some (((List.range safeTotal.toNat).filter fun idx => getSeedBit bytes idx == 1).map Int.ofNat)

/-- Shareable configuration tuple from urlState.ts (ShareableAutomatonState). -/
structure ShareableAutomatonState where
  ruleDecimal : Int
  totalItems : Int
  generations : Int
  delay : Int
  seedIndices : List Int
deriving Repr, DecidableEq

/-- Result of parseShareableStateFromLocation; a seedIndices value of none
models the field being omitted from the returned object (a present empty
list is some []). -/
structure ParsedShareableState where
  ruleDecimal : Int
  totalItems : Int
  generations : Int
  delay : Int
  seedIndices : Option (List Int)
deriving Repr, DecidableEq

/-- Modelled platform primitive URLSearchParams.get: the location search
string is abstracted as the list of decoded key-value pairs it parses to,
and get returns the first value for the key, or null (none). -/
def getParam (params : List (String × String)) (key : String) : Option String :=
  (params.find? fun kv => kv.1 == key).map fun kv => kv.2

/-- Modelled platform primitive Math.floor(Number(raw)) on strings: after
trimming whitespace the empty string converts to 0, and an optionally signed
decimal numeral (with optional fractional part) converts to its floor.
Other syntax (exponents, hex, Infinity) converts to none, which the caller
treats like NaN, falling back to its default.  Decimal numerals beyond
exact double precision are outside the embedding. -/
def jsNumberFloor (raw : String) : Option Int :=
  let t := ((raw.data.dropWhile isAsciiWs).reverse.dropWhile isAsciiWs).reverse
  if t = [] then some 0
  else
    let signRest : Bool × List Char :=
      match t with
      | '-' :: r => (true, r)
      | '+' :: r => (false, r)
      | r => (false, r)
    let intPart := signRest.2.takeWhile Char.isDigit
    let rest2 := signRest.2.dropWhile Char.isDigit
    let fracRest : List Char × List Char :=
      match rest2 with
      | '.' :: r => (r.takeWhile Char.isDigit, r.dropWhile Char.isDigit)
      | r => ([], r)
    if fracRest.2 ≠ [] then none
    else if intPart = [] ∧ fracRest.1 = [] then none
    else
      let n : Nat := intPart.foldl (fun acc c => acc * 10 + (c.toNat - 48)) 0
      if signRest.1 then
        if fracRest.1.any fun c => c ≠ '0' then some (-(n : Int) - 1) else some (-(n : Int))
      else some (n : Int)

/-- parseIntParam from useStarredConfigs.ts: missing parameter or a
non-finite Number gives the fallback, otherwise Math.floor of the value. -/
def parseIntParam (params : List (String × String)) (key : String) (fallback : Int) : Int :=
  match getParam params key with
  | none => fallback
  | some raw =>
    match jsNumberFloor raw with
    | none => fallback
    | some n => n

/-- parseShareableStateFromLocation from useStarredConfigs.ts, over the
parameter list the location search string parses to.  The spread of the
seed list into the result happens only when decodeSeedBitset returned a
non-null array (an array, even empty, is truthy in JavaScript). -/
def parseShareableStateFromLocation (params : List (String × String)) : ParsedShareableState :=
  let ruleDecimal := clampInt (parseIntParam params "r" 22) 0 255
  let totalItems := clampInt (parseIntParam params "w" 118) 1 300
  let generations := clampInt (parseIntParam params "g" 100) 1 500
  let delay := clampInt (parseIntParam params "d" 10) 10 5000
  let seedIndices :=
    match getParam params "s" with
    | none => none
    | some seedEncoded => decodeSeedBitset totalItems seedEncoded
  { ruleDecimal := ruleDecimal, totalItems := totalItems, generations := generations,
    delay := delay, seedIndices := seedIndices }

/-- The key-value pairs buildShareableSearch sets on its URLSearchParams, in
insertion order. -/
def shareEntries (state : ShareableAutomatonState) : List (String × String) :=
  [("r", toString (clampInt state.ruleDecimal 0 255)),
   ("w", toString (clampInt state.totalItems 1 300)),
   ("g", toString (clampInt state.generations 1 500)),
   ("d", toString (clampInt state.delay 10 5000)),
   ("s", encodeSeedBitset state.totalItems state.seedIndices)]

/-- buildShareableSearch from useStarredConfigs.ts.  URLSearchParams
serializes the set pairs in insertion order as key=value joined by
ampersands; every character these values contain (digits and the base64url
alphabet) is left unescaped by the serializer, so plain joining is exact. -/
def buildShareableSearch (state : ShareableAutomatonState) : String :=
  let s := String.intercalate "&" ((shareEntries state).map fun kv => kv.1 ++ "=" ++ kv.2)
  if s.length ≠ 0 then "?" ++ s else ""

/-- padStart of a character list to a target length, as String.padStart. -/
def padStartChars (l : List Char) (len : Nat) (c : Char) : List Char :=
  List.replicate (len - l.length) c ++ l

/-- to8BitBinary from rules.ts: an integer outside the range 0 to 255 throws
(embedded as Except.error carrying the thrown message); in range, the value
of decimal.toString(2) padded with zeros to width 8, most-significant bit
first.  Number.isInteger holds on the whole Int domain of the embedding. -/
def to8BitBinary (decimal : Int) : Except String String :=
  if decimal < 0 ∨ decimal > 255 then
    Except.error ("Rule must be an integer in [0, 255]. Got: " ++ toString decimal)
  else
    Except.ok (String.mk (padStartChars (Nat.toDigits 2 decimal.toNat) 8 '0'))

/-- applyElementaryRule from useElementaryAutomaton.ts: the neighborhood
index is (left shifted left 2) or (current shifted left 1) or right, and the
output bit is (ruleDecimal shifted right by the index) and 1.  The 32-bit
JavaScript operators agree with the Nat operators on this range. -/
def applyElementaryRule (ruleDecimal left current right : Nat) : Nat :=
  let idx := left <<< 2 ||| current <<< 1 ||| right
  ruleDecimal >>> idx &&& 1

/-- One synchronous generation step of the ring ("stitched") automaton: the
body of the setInterval callback in useElementaryAutomaton.ts building
nextBlocks from prev.blocks.  Every cell reads only the previous row.  For
row index i and length n the neighbors are (i - 1 + n) mod n and (i + 1)
mod n; on natural numbers (i - 1 + n) is written (i + n - 1), the same
value for every i since n >= 1 whenever the callback runs. -/
def stepRow (rule boundaryValue : Nat) (row : List Nat) : List Nat :=
  (List.range row.length).map fun i =>
    let n := row.length
    if n = 0 then boundaryValue
    else
      let left := row.getD ((i + n - 1) % n) boundaryValue
      let current := row.getD i boundaryValue
      let right := row.getD ((i + 1) % n) boundaryValue
      applyElementaryRule rule left current right

/-- countOnes from useElementaryAutomaton.ts: reduce((acc, b) => acc + b, 0). -/
def countOnes (values : List Nat) : Nat :=
  values.foldl (fun acc b => acc + b) 0

/-- makeInitialValues from useElementaryAutomaton.ts (the seedIndices-aware
version).  The Fisher-Yates shuffle driven by Math.random is modelled by
the oracle argument shuffled, standing for the permuted index array the
shuffle produced; the explicit-seed branch never consults it.  Math.floor
and Number.isFinite are identities on the Int domain. -/
def makeInitialValues (totalItems : Nat) (initialOnes : Int) (boundaryValue : Nat)
    (seedIndices : Option (List Int)) (shuffled : List Nat) : List Nat :=
  let n : Int := max 0 (min (totalItems : Int) initialOnes)
  let values := List.replicate totalItems boundaryValue
  if totalItems = 0 then values
  else
    match seedIndices with
    | some seeds =>
      if seeds.length > 0 then
        let idxSet := setFromList (seeds.filter fun idx =>
          decide (0 ≤ idx) && decide (idx < (totalItems : Int)))
        idxSet.foldl (fun vs i => vs.set i.toNat 1) values
      else if n = 0 then values
      else (shuffled.take n.toNat).foldl (fun vs i => vs.set i 1) values
    | none =>
      if n = 0 then values
      else (shuffled.take n.toNat).foldl (fun vs i => vs.set i 1) values

/-- The state held by useElementaryAutomaton: current row, generation
pointer, running flag, and the two history arrays (ones count per
generation, and one row per generation tagged with its index). -/
structure EngineState where
  blocks : List Nat
  generation : Nat
  isRunning : Bool
  onesHistory : List Nat
  blocksHistory : List (Nat × List Nat)
deriving Repr, DecidableEq

/-- One tick of the setInterval effect in useElementaryAutomaton.ts.  The
interval exists only while isRunning, so a tick on a non-running state is
the identity.  The source writes nextHistory[nextGeneration] = value after
slicing to generation + 1; on every reachable state the sliced prefix has
length generation + 1, making that assignment the append modelled here. -/
def tick (rule generations boundaryValue : Nat) (prev : EngineState) : EngineState :=
  if prev.isRunning then
    let nextBlocks := stepRow rule boundaryValue prev.blocks
    let nextGeneration := prev.generation + 1
    let nextHistory := prev.onesHistory.take (prev.generation + 1) ++ [countOnes nextBlocks]
    let nextBlocksHistory :=
      prev.blocksHistory.take (prev.generation + 1) ++ [(nextGeneration, nextBlocks)]
    { blocks := nextBlocks
      generation := nextGeneration
      isRunning := if generations ≤ nextGeneration then false else prev.isRunning
      onesHistory := nextHistory
      blocksHistory := nextBlocksHistory }
  else prev

/-- The start callback from useElementaryAutomaton.ts (seedIndices version):
reseed is not needed here because blocks are rebuilt from the current
configuration by the caller; the state is reset to generation 0, running,
with history holding only generation 0. -/
def engineStart (blocks : List Nat) : EngineState :=
  { blocks := blocks
    generation := 0
    isRunning := true
    onesHistory := [countOnes blocks]
    blocksHistory := [(0, blocks)] }

/-- Iterate the clock: k ticks of the step interval. -/
def tickN (rule generations boundaryValue : Nat) : Nat → EngineState → EngineState
  | 0, s => s
  | k + 1, s => tick rule generations boundaryValue (tickN rule generations boundaryValue k s)

/-- JavaScript values as produced by JSON.parse, for the persisted starred
list.  A number is either a finite integer (some n) or a non-finite value
(none, modelling NaN and the infinities); fractional doubles are outside
the embedding. -/
inductive JSValue where
  | null
  | bool (b : Bool)
  | num (n : Option Int)
  | str (s : String)
  | arr (elems : List JSValue)
  | obj (fields : List (String × JSValue))

/-- StarredConfig from starredConfigs.ts. -/
structure StarredConfig where
  id : String
  search : String
  ruleDecimal : Int
  createdAt : Int
deriving Repr, DecidableEq

/-- Field lookup on a parsed JavaScript object (JSON.parse yields unique
keys, so first match suffices); a missing field reads as undefined, which
fails every typeof test in isStarredConfig. -/
def getField (fields : List (String × JSValue)) (key : String) : Option JSValue :=
  (fields.find? fun kv => kv.1 == key).map fun kv => kv.2

/-- isStarredConfig from starredConfigs.ts, fused with the typed read-out of
the validated entry: some entry exactly when the value is an object whose
id and search are strings and whose ruleDecimal and createdAt are finite
numbers; every other shape (null, primitive, array, wrong or missing field
types, non-finite numbers) is rejected. -/
def toStarredConfig (v : JSValue) : Option StarredConfig :=
  match v with
  | .obj fields =>
    match getField fields "id", getField fields "search",
        getField fields "ruleDecimal", getField fields "createdAt" with
    | some (.str id), some (.str search), some (.num (some ruleDecimal)),
        some (.num (some createdAt)) =>
      some { id := id, search := search, ruleDecimal := ruleDecimal, createdAt := createdAt }
    | _, _, _, _ => none
  | _ => none

/-- normalizeSearch from starredConfigs.ts: the empty (falsy) string stays
empty, otherwise a leading question mark is ensured (startsWith with the
one-character pattern is the head-character test). -/
def normalizeSearch (search : String) : String :=
  if search = "" then ""
  else if search.data.head? = some '?' then search
  else "?" ++ search

/-- The normalize-and-deduplicate loop of loadStarredConfigs: the canonical
id is the normalized search string, an empty id is skipped, an id already
seen (the seen Set) is skipped, and a kept item is emitted with its search
and id replaced by the canonical value, first occurrence winning. -/
def dedupStarred : List StarredConfig → List String → List StarredConfig
  | [], _ => []
  | item :: rest, seen =>
    let canon := normalizeSearch item.search
    if canon = "" then dedupStarred rest seen
    else if canon ∈ seen then dedupStarred rest seen
    else { item with search := canon, id := canon } :: dedupStarred rest (canon :: seen)

/-- loadStarredConfigs from starredConfigs.ts, over the JSON.parse result of
the persisted value (none models both a missing key and malformed JSON,
which safeJsonParse absorbs to null).  A non-array parse yields the empty
list; otherwise entries failing isStarredConfig are dropped, the list is
deduplicated by canonical id, sorted by createdAt descending with the
stable Array sort (modelled by insertion sort), and truncated to 50. -/
def loadStarredConfigs (parsed : Option JSValue) : List StarredConfig :=
  match parsed with
  | some (.arr elems) =>
    let items := elems.filterMap toStarredConfig
    let out := dedupStarred items []
    let sorted := List.insertionSort (fun a b => b.createdAt ≤ a.createdAt) out
    sorted.take 50
  | _ => []

/-- The elements of the persisted array, empty for any non-array parse;
used to state which inputs the loaded entries originate from. -/
def jsElems : Option JSValue → List JSValue
  | some (.arr elems) => elems
  | _ => []

/-- The six-bit values of the base64 encoding of a byte list, without the
padding characters; proof-side companion of btoaChars. -/
def encSextets : List Nat → List Nat
  | [] => []
  | [b0] => [b0 / 4, b0 % 4 * 16]
  | [b0, b1] => [b0 / 4, b0 % 4 * 16 + b1 / 16, b1 % 16 * 4]
  | b0 :: b1 :: b2 :: rest =>
    b0 / 4 :: (b0 % 4 * 16 + b1 / 16) :: (b1 % 16 * 4 + b2 / 64) :: b2 % 64 :: encSextets rest

deriving instance DecidableEq for Except

instance : IsTotal StarredConfig fun a b => b.createdAt ≤ a.createdAt :=
  ⟨fun a b => le_total b.createdAt a.createdAt⟩

instance : IsTrans StarredConfig fun a b => b.createdAt ≤ a.createdAt :=
  ⟨fun _ _ _ hab hbc => le_trans hbc hab⟩

theorem clampInt_mem_of_le (v lo hi : Int) (h : lo ≤ hi) :
    lo ≤ clampInt v lo hi ∧ clampInt v lo hi ≤ hi := by
  unfold clampInt
  omega

theorem clampInt_eq_self (v lo hi : Int) (h1 : lo ≤ v) (h2 : v ≤ hi) :
    clampInt v lo hi = v := by
  unfold clampInt
  omega

theorem shiftRight_and_one (x k : Nat) :
    x >>> k &&& 1 = if x.testBit k then 1 else 0 := by
  rw [Nat.and_one_is_mod, Nat.shiftRight_eq_div_pow, Nat.testBit_to_div_mod]
  rcases Nat.mod_two_eq_zero_or_one (x / 2 ^ k) with h | h <;> simp [h]

theorem getSeedBit_eq_testBit (bytes : List Nat) (idx : Nat) :
    getSeedBit bytes idx = if (bytes.getD (idx / 8) 0).testBit (7 - idx % 8) then 1 else 0 :=
  shiftRight_and_one _ _

theorem getSeedBit_replicate_zero (m idx : Nat) :
    getSeedBit (List.replicate m 0) idx = 0 := by
  rw [getSeedBit_eq_testBit, List.getD_eq_getElem?_getD, List.getElem?_replicate]
  by_cases h : idx / 8 < m <;> simp [h]

theorem getSeedBit_setSeedBit (bytes : List Nat) (a idx : Nat) (ha : a / 8 < bytes.length) :
    getSeedBit (setSeedBit bytes a) idx = if idx = a then 1 else getSeedBit bytes idx := by
  have hmask : (1 : Nat) <<< (7 - a % 8) = 2 ^ (7 - a % 8) := Nat.one_shiftLeft _
  rw [getSeedBit_eq_testBit, getSeedBit_eq_testBit]
  by_cases hbyte : idx / 8 = a / 8
  · have hset : (setSeedBit bytes a).getD (idx / 8) 0
        = bytes.getD (a / 8) 0 ||| 2 ^ (7 - a % 8) := by
      unfold setSeedBit
      rw [hbyte, List.getD_eq_getElem?_getD, List.getElem?_set_self ha,
        List.getD_eq_getElem?_getD, hmask]
      rfl
    rw [hset, hbyte]
    by_cases hia : idx = a
    · subst hia
      simp [Nat.testBit_or, Nat.testBit_two_pow]
    · have hmod : idx % 8 ≠ a % 8 := by omega
      have hbit : (7 - a % 8) ≠ (7 - idx % 8) := by omega
      simp [Nat.testBit_or, Nat.testBit_two_pow, hbit, hia]
  · have hset : (setSeedBit bytes a).getD (idx / 8) 0 = bytes.getD (idx / 8) 0 := by
      unfold setSeedBit
      rw [List.getD_eq_getElem?_getD, List.getElem?_set_ne (by omega),
        List.getD_eq_getElem?_getD]
    have hia : idx ≠ a := by
      intro h
      exact hbyte (by rw [h])
    rw [hset]
    simp [hia]

theorem length_setSeedBit (bytes : List Nat) (a : Nat) :
    (setSeedBit bytes a).length = bytes.length := by
  unfold setSeedBit
  exact List.length_set ..

theorem getSeedBit_foldl (l : List Nat) (init : List Nat) (idx : Nat)
    (hl : ∀ a ∈ l, a / 8 < init.length) :
    getSeedBit (l.foldl setSeedBit init) idx
      = if idx ∈ l then 1 else getSeedBit init idx := by
  induction l generalizing init with
  | nil => simp
  | cons a rest ih =>
    rw [List.foldl_cons]
    have hlen : ∀ b ∈ rest, b / 8 < (setSeedBit init a).length := by
      intro b hb
      rw [length_setSeedBit]
      exact hl b (List.mem_cons_of_mem a hb)
    rw [ih (setSeedBit init a) hlen,
      getSeedBit_setSeedBit init a idx (hl a (List.mem_cons_self a rest))]
    by_cases hmem : idx ∈ rest <;> by_cases hia : idx = a <;>
      simp [hmem, hia]

theorem byteLen_bound (t a : Nat) (h : a < t) : a / 8 < (t + 7) / 8 := by
  omega

theorem bytes_lt_foldl_setSeedBit (l : List Nat) (init : List Nat)
    (hinit : ∀ b ∈ init, b < 256) :
    ∀ b ∈ l.foldl setSeedBit init, b < 256 := by
  induction l generalizing init with
  | nil => simpa using hinit
  | cons a rest ih =>
    rw [List.foldl_cons]
    refine ih (setSeedBit init a) ?_
    intro b hb
    unfold setSeedBit at hb
    rcases List.mem_or_eq_of_mem_set hb with h | h
    · exact hinit b h
    · subst h
      have h1 : init.getD (a / 8) 0 < 256 := by
        rw [List.getD_eq_getElem?_getD]
        cases hli : init[a / 8]? with
        | none => simp
        | some v =>
          have := List.getElem?_mem hli
          simpa using hinit v this
      have h2 : (1 : Nat) <<< (7 - a % 8) < 256 := by
        rw [Nat.one_shiftLeft]
        calc 2 ^ (7 - a % 8) ≤ 2 ^ 7 := Nat.pow_le_pow_right (by omega) (by omega)
        _ < 256 := by omega
      have : (256 : Nat) = 2 ^ 8 := by omega
      rw [this] at h1 h2 ⊢
      exact Nat.or_lt_two_pow h1 h2

theorem length_foldl_setSeedBit (l : List Nat) (init : List Nat) :
    (l.foldl setSeedBit init).length = init.length := by
  induction l generalizing init with
  | nil => rfl
  | cons a rest ih =>
    rw [List.foldl_cons, ih, length_setSeedBit]

theorem mem_addUnique (seen : List Int) (a x : Int) :
    x ∈ addUnique seen a ↔ x ∈ seen ∨ x = a := by
  unfold addUnique
  by_cases h : a ∈ seen
  · simp only [if_pos h]
    constructor
    · exact Or.inl
    · rintro (hx | rfl)
      · exact hx
      · exact h
  · simp [if_neg h]

theorem nodup_addUnique (seen : List Int) (a : Int) (h : seen.Nodup) :
    (addUnique seen a).Nodup := by
  unfold addUnique
  by_cases ha : a ∈ seen
  · simpa [ha]
  · simp [ha, List.nodup_append, h]

theorem mem_foldl_addUnique (l : List Int) (seen : List Int) (x : Int) :
    x ∈ l.foldl addUnique seen ↔ x ∈ seen ∨ x ∈ l := by
  induction l generalizing seen with
  | nil => simp
  | cons a rest ih =>
    rw [List.foldl_cons, ih, mem_addUnique]
    simp only [List.mem_cons]
    tauto

theorem nodup_foldl_addUnique (l : List Int) (seen : List Int) (h : seen.Nodup) :
    (l.foldl addUnique seen).Nodup := by
  induction l generalizing seen with
  | nil => exact h
  | cons a rest ih =>
    rw [List.foldl_cons]
    exact ih _ (nodup_addUnique seen a h)

theorem mem_setFromList (l : List Int) (x : Int) : x ∈ setFromList l ↔ x ∈ l := by
  unfold setFromList
  rw [mem_foldl_addUnique]
  simp

theorem nodup_setFromList (l : List Int) : (setFromList l).Nodup :=
  nodup_foldl_addUnique l [] List.nodup_nil

theorem mem_uniqSortedIndices (indices : List Int) (totalItems : Int) (i : Int) :
    i ∈ uniqSortedIndices indices totalItems ↔ i ∈ indices ∧ 0 ≤ i ∧ i < totalItems := by
  unfold uniqSortedIndices
  rw [List.mem_insertionSort, mem_setFromList, List.mem_filter]
  simp

theorem pairwise_lt_uniqSortedIndices (indices : List Int) (totalItems : Int) :
    List.Pairwise (· < ·) (uniqSortedIndices indices totalItems) := by
  unfold uniqSortedIndices
  have hsorted : List.Sorted (· ≤ ·)
      (List.insertionSort (· ≤ ·) (setFromList (indices.filter fun idx =>
        decide (0 ≤ idx) && decide (idx < totalItems)))) :=
    List.sorted_insertionSort _ _
  have hnodup : (List.insertionSort (α := Int) (· ≤ ·) (setFromList (indices.filter fun idx =>
      decide (0 ≤ idx) && decide (idx < totalItems)))).Nodup := by
    rw [(List.perm_insertionSort _ _).nodup_iff]
    exact nodup_setFromList _
  have := hsorted.and hnodup
  exact this.imp fun hab => lt_of_le_of_ne hab.1 hab.2

theorem btoaChars_eq (bytes : List Nat) :
    btoaChars bytes
      = (encSextets bytes).map base64Char
        ++ List.replicate ((3 - bytes.length % 3) % 3) '=' := by
  induction bytes using btoaChars.induct with
  | case1 => simp [btoaChars, encSextets]
  | case2 b0 => simp [btoaChars, encSextets]
  | case3 b0 b1 => simp [btoaChars, encSextets]
  | case4 b0 b1 b2 rest ih =>
    have hmod : (3 - (rest.length + 3) % 3) % 3 = (3 - rest.length % 3) % 3 := by omega
    simp only [btoaChars, encSextets, List.map_cons, List.length_cons, ih]
    simp [hmod]

theorem length_encSextets (bytes : List Nat) :
    (encSextets bytes).length = bytes.length + (bytes.length + 2) / 3 := by
  induction bytes using encSextets.induct with
  | case1 => simp [encSextets]
  | case2 b0 => simp [encSextets]
  | case3 b0 b1 => simp [encSextets]
  | case4 b0 b1 b2 rest ih =>
    simp only [encSextets, List.length_cons, ih]
    omega

theorem encSextets_lt (bytes : List Nat) (h : ∀ b ∈ bytes, b < 256) :
    ∀ x ∈ encSextets bytes, x < 64 := by
  induction bytes using encSextets.induct with
  | case1 => simp [encSextets]
  | case2 b0 =>
    have h0 := h b0 (by simp)
    simp only [encSextets, List.mem_cons, List.not_mem_nil, or_false]
    rintro x (rfl | rfl) <;> omega
  | case3 b0 b1 =>
    have h0 := h b0 (by simp)
    have h1 := h b1 (by simp)
    simp only [encSextets, List.mem_cons, List.not_mem_nil, or_false]
    rintro x (rfl | rfl | rfl) <;> omega
  | case4 b0 b1 b2 rest ih =>
    have h0 := h b0 (by simp)
    have h1 := h b1 (by simp)
    have h2 := h b2 (by simp)
    have hrest : ∀ b ∈ rest, b < 256 := by
      intro b hb
      exact h b (by simp [hb])
    simp only [encSextets, List.mem_cons]
    rintro x (rfl | rfl | rfl | rfl | hx)
    · omega
    · omega
    · omega
    · omega
    · exact ih hrest x hx

theorem decodeSextets_encSextets (bytes : List Nat) (h : ∀ b ∈ bytes, b < 256) :
    decodeSextets (encSextets bytes) = bytes := by
  induction bytes using encSextets.induct with
  | case1 => rfl
  | case2 b0 =>
    have h0 := h b0 (by simp)
    simp only [encSextets, decodeSextets, List.cons.injEq, and_true]
    omega
  | case3 b0 b1 =>
    have h0 := h b0 (by simp)
    have h1 := h b1 (by simp)
    simp only [encSextets, decodeSextets, List.cons.injEq, and_true]
    omega
  | case4 b0 b1 b2 rest ih =>
    have h0 := h b0 (by simp)
    have h1 := h b1 (by simp)
    have h2 := h b2 (by simp)
    have hrest : ∀ b ∈ rest, b < 256 := by
      intro b hb
      exact h b (by simp [hb])
    simp only [encSextets, decodeSextets, List.cons.injEq]
    refine ⟨by omega, by omega, by omega, ih hrest⟩

theorem base64CharDecode_base64Char : ∀ n, n < 64 → base64CharDecode (base64Char n) = some n := by
  decide

theorem base64Char_ne_pad : ∀ n, n < 64 → base64Char n ≠ '=' := by
  decide

theorem base64Char_not_ws : ∀ n, n < 64 → isAsciiWs (base64Char n) = false := by
  decide

theorem fromUrl_toUrl_base64Char : ∀ n, n < 64 →
    fromUrlChar (toUrlChar (base64Char n)) = base64Char n := by
  decide

theorem toUrl_base64Char_ne_pad : ∀ n, n < 64 → toUrlChar (base64Char n) ≠ '=' := by
  decide

theorem decodeB64Chars_map (l : List Nat) (h : ∀ x ∈ l, x < 64) :
    decodeB64Chars (l.map base64Char) = some l := by
  induction l with
  | nil => rfl
  | cons a rest ih =>
    have ha := h a (by simp)
    have hrest : ∀ x ∈ rest, x < 64 := fun x hx => h x (by simp [hx])
    simp only [List.map_cons, decodeB64Chars, base64CharDecode_base64Char a ha, ih hrest]

theorem dropTrailingPad_append_pad (alpha : List Char) (p : Nat) (hp : p ≤ 2)
    (halpha : ∀ c ∈ alpha, c ≠ '=') :
    dropTrailingPad (alpha ++ List.replicate p '=') = alpha := by
  have hnotake : ∀ k, '=' ∉ alpha.reverse.take k := by
    intro k hk
    exact halpha _ (List.mem_reverse.mp (List.mem_of_mem_take hk)) rfl
  interval_cases p
  · have h2 : alpha.reverse.take 2 ≠ ['=', '='] := by
      intro hcontra
      exact hnotake 2 (by rw [hcontra]; simp)
    have h1 : alpha.reverse.take 1 ≠ ['='] := by
      intro hcontra
      exact hnotake 1 (by rw [hcontra]; simp)
    unfold dropTrailingPad
    simp only [List.replicate, List.append_nil]
    rw [if_neg h2, if_neg h1]
  · rcases List.eq_nil_or_concat alpha with rfl | ⟨init, d, rfl⟩
    · rfl
    · simp only [List.concat_eq_append] at halpha ⊢
      have hd : d ≠ '=' := halpha d (by simp)
      have hrev : (init ++ [d] ++ List.replicate 1 '=').reverse
          = '=' :: d :: init.reverse := by
        simp
      unfold dropTrailingPad
      rw [hrev]
      have h2 : List.take 2 ('=' :: d :: init.reverse) ≠ ['=', '='] := by
        simp only [List.take]
        intro hcontra
        apply hd
        have := List.cons.inj hcontra
        exact (List.cons.inj this.2).1
      rw [if_neg h2]
      simp
  · have hrev : (alpha ++ List.replicate 2 '=').reverse
        = '=' :: '=' :: alpha.reverse := by
      simp [List.replicate]
    unfold dropTrailingPad
    rw [hrev]
    simp

theorem pad_arith (n : Nat) : (4 - (n + (n + 2) / 3) % 4) % 4 = (3 - n % 3) % 3 := by
  obtain ⟨q, r, hr, rfl⟩ : ∃ q r, r < 3 ∧ n = 3 * q + r :=
    ⟨n / 3, n % 3, Nat.mod_lt _ (by omega), (Nat.div_add_mod n 3).symm⟩
  interval_cases r <;> omega

theorem atobModel_btoaChars (bytes : List Nat) (h : ∀ b ∈ bytes, b < 256) :
    atobModel (btoaChars bytes) = some bytes := by
  have hsx64 : ∀ x ∈ encSextets bytes, x < 64 := encSextets_lt bytes h
  have halpha : ∀ c ∈ (encSextets bytes).map base64Char, c ≠ '=' := by
    intro c hc
    rcases List.mem_map.mp hc with ⟨v, hv, rfl⟩
    exact base64Char_ne_pad v (hsx64 v hv)
  have hfilter : (btoaChars bytes).filter (fun c => !(isAsciiWs c)) = btoaChars bytes := by
    apply List.filter_eq_self.mpr
    intro c hc
    rw [btoaChars_eq] at hc
    rcases List.mem_append.mp hc with hc | hc
    · rcases List.mem_map.mp hc with ⟨v, hv, rfl⟩
      simp [base64Char_not_ws v (hsx64 v hv)]
    · have : c = '=' := List.eq_of_mem_replicate hc
      subst this
      decide
  have hlenalpha : ((encSextets bytes).map base64Char).length
      = bytes.length + (bytes.length + 2) / 3 := by
    rw [List.length_map, length_encSextets]
  have hlen4 : ((btoaChars bytes).filter fun c => !(isAsciiWs c)).length % 4 = 0 := by
    rw [hfilter, btoaChars_eq, List.length_append, hlenalpha, List.length_replicate]
    omega
  unfold atobModel
  rw [if_pos hlen4, hfilter]
  rw [btoaChars_eq, dropTrailingPad_append_pad _ _ (by omega) halpha]
  unfold atobDecodeData
  have hne1 : ¬((encSextets bytes).map base64Char).length % 4 = 1 := by
    rw [hlenalpha]
    omega
  rw [if_neg hne1, decodeB64Chars_map _ hsx64]
  show some (decodeSextets (encSextets bytes)) = some bytes
  rw [decodeSextets_encSextets bytes h]

theorem base64UrlDecode_encode (bytes : List Nat) (h : ∀ b ∈ bytes, b < 256) :
    base64UrlDecode (base64UrlEncode bytes) = some bytes := by
  have hsx64 : ∀ x ∈ encSextets bytes, x < 64 := encSextets_lt bytes h
  have hdata : (base64UrlEncode bytes).data
      = (encSextets bytes).map fun v => toUrlChar (base64Char v) := by
    unfold base64UrlEncode
    show (((btoaChars bytes).map toUrlChar).filter fun c => c ≠ '=') = _
    rw [btoaChars_eq, List.map_append, List.filter_append, List.map_map]
    have h1 : ((encSextets bytes).map (toUrlChar ∘ base64Char)).filter (fun c => c ≠ '=')
        = (encSextets bytes).map fun v => toUrlChar (base64Char v) := by
      apply List.filter_eq_self.mpr
      intro c hc
      rcases List.mem_map.mp hc with ⟨v, hv, rfl⟩
      simp [toUrl_base64Char_ne_pad v (hsx64 v hv)]
    have h2 : ((List.replicate ((3 - bytes.length % 3) % 3) '=').map toUrlChar).filter
        (fun c => c ≠ '=') = [] := by
      rw [List.map_replicate]
      show (List.replicate _ (toUrlChar '=')).filter _ = []
      rw [show toUrlChar '=' = '=' from rfl, List.filter_replicate]
      simp
    rw [h1, h2, List.append_nil]
  have hb64 : (base64UrlEncode bytes).data.map fromUrlChar
      = (encSextets bytes).map base64Char := by
    rw [hdata, List.map_map]
    apply List.map_congr_left
    intro x hx
    exact fromUrl_toUrl_base64Char x (hsx64 x hx)
  have hslen : (base64UrlEncode bytes).data.length
      = bytes.length + (bytes.length + 2) / 3 := by
    rw [hdata, List.length_map, length_encSextets]
  unfold base64UrlDecode
  rw [hb64, hslen, pad_arith, ← btoaChars_eq]
  exact atobModel_btoaChars bytes h

theorem decodeSeedBitset_some (totalItems : Int) (encoded : String) (bytes : List Nat)
    (h : base64UrlDecode encoded = some bytes) :
    decodeSeedBitset totalItems encoded
      = some (((List.range (clampInt totalItems 1 300).toNat).filter
          fun idx => getSeedBit bytes idx == 1).map Int.ofNat) := by
  simp only [decodeSeedBitset, h]

theorem decodeSeedBitset_none_iff (totalItems : Int) (encoded : String) :
    decodeSeedBitset totalItems encoded = none ↔ base64UrlDecode encoded = none := by
  cases h : base64UrlDecode encoded with
  | none => simp [decodeSeedBitset, h]
  | some bytes => simp [decodeSeedBitset, h]

theorem mem_decodeList (bytes : List Nat) (n : Nat) (i : Int) :
    i ∈ ((List.range n).filter fun idx => getSeedBit bytes idx == 1).map Int.ofNat
      ↔ 0 ≤ i ∧ i.toNat < n ∧ getSeedBit bytes i.toNat = 1 := by
  rw [List.mem_map]
  constructor
  · rintro ⟨a, ha, rfl⟩
    rw [List.mem_filter, List.mem_range] at ha
    refine ⟨Int.ofNat_zero ▸ Int.ofNat_le.mpr (Nat.zero_le a), by simpa using ha.1,
      by simpa using ha.2⟩
  · rintro ⟨h0, hn, hbit⟩
    refine ⟨i.toNat, ?_, Int.toNat_of_nonneg h0⟩
    rw [List.mem_filter, List.mem_range]
    exact ⟨hn, by simpa using hbit⟩

theorem pairwise_decodeList (bytes : List Nat) (n : Nat) :
    List.Pairwise (· < ·)
      (((List.range n).filter fun idx => getSeedBit bytes idx == 1).map Int.ofNat) := by
  refine List.Pairwise.map _ ?_ ((List.pairwise_lt_range n).filter _)
  intro a b hab
  exact Int.ofNat_lt.mpr hab

theorem tickN_succ (rule g b k : Nat) (s : EngineState) :
    tickN rule g b (k + 1) s = tick rule g b (tickN rule g b k s) := rfl

theorem engine_invariant (rule boundaryValue : Nat) (blocks : List Nat) (g : Nat)
    (hg : 1 ≤ g) (k : Nat) :
    (tickN rule g boundaryValue k (engineStart blocks)).generation = min k g ∧
    (tickN rule g boundaryValue k (engineStart blocks)).isRunning = decide (k < g) ∧
    (tickN rule g boundaryValue k (engineStart blocks)).blocksHistory.length = min k g + 1 ∧
    (tickN rule g boundaryValue k (engineStart blocks)).onesHistory.length = min k g + 1 := by
  induction k with
  | zero =>
    refine ⟨by simp [tickN, engineStart], ?_, by simp [tickN, engineStart], by simp [tickN, engineStart]⟩
    show (engineStart blocks).isRunning = decide (0 < g)
    rw [decide_eq_true (show 0 < g by omega)]
    rfl
  | succ k ih =>
    obtain ⟨hgen, hrun, hbh, hoh⟩ := ih
    rw [tickN_succ]
    by_cases hk : k < g
    · have hrun' : (tickN rule g boundaryValue k (engineStart blocks)).isRunning = true := by
        rw [hrun]
        exact decide_eq_true hk
      have hmin : min k g = k := by omega
      have hmin' : min (k + 1) g = k + 1 := by omega
      simp only [tick, hrun', if_true]
      refine ⟨by rw [hgen, hmin, hmin'], ?_, ?_, ?_⟩
      · rw [hgen, hmin]
        by_cases h2 : g ≤ k + 1
        · rw [if_pos h2, (decide_eq_false (show ¬(k + 1 < g) by omega)).symm]
        · rw [if_neg h2]
          exact (decide_eq_true (show k + 1 < g by omega)).symm
      · rw [List.length_append, List.length_take, hgen, hmin, hbh, hmin']
        simp
        omega
      · rw [List.length_append, List.length_take, hgen, hmin, hoh, hmin']
        simp
        omega
    · have hrun' : (tickN rule g boundaryValue k (engineStart blocks)).isRunning = false := by
        rw [hrun]
        exact decide_eq_false hk
      have hmin : min (k + 1) g = min k g := by omega
      simp only [tick, hrun', if_false, Bool.false_eq_true]
      refine ⟨by rw [hgen, hmin], ?_, by rw [hbh, hmin], by rw [hoh, hmin]⟩
      exact (decide_eq_false (show ¬(k + 1 < g) by omega)).symm

theorem stepRow_length (rule boundaryValue : Nat) (row : List Nat) :
    (stepRow rule boundaryValue row).length = row.length := by
  simp [stepRow]

theorem stepRow_getD (rule boundaryValue : Nat) (row : List Nat) (i : Nat)
    (hi : i < row.length) :
    (stepRow rule boundaryValue row).getD i 0
      = applyElementaryRule rule
          (row.getD ((i + row.length - 1) % row.length) boundaryValue)
          (row.getD i boundaryValue)
          (row.getD ((i + 1) % row.length) boundaryValue) := by
  have hlen : i < (stepRow rule boundaryValue row).length := by
    rw [stepRow_length]
    exact hi
  rw [List.getD_eq_getElem _ _ hlen]
  unfold stepRow
  simp only [List.getElem_map, List.getElem_range]
  rw [if_neg (by omega)]

theorem applyElementaryRule_arith (rule l c r : Nat)
    (hl : l = 0 ∨ l = 1) (hc : c = 0 ∨ c = 1) (hr : r = 0 ∨ r = 1) :
    applyElementaryRule rule l c r = rule >>> (l * 4 + c * 2 + r) &&& 1 := by
  unfold applyElementaryRule
  rcases hl with rfl | rfl <;> rcases hc with rfl | rfl <;> rcases hr with rfl | rfl <;> rfl

theorem getD_foldl_setOne (l : List Int) (values : List Nat) (i : Nat)
    (hl : ∀ a ∈ l, 0 ≤ a ∧ a.toNat < values.length) :
    (l.foldl (fun vs a => vs.set a.toNat 1) values).getD i 0
      = if (i : Int) ∈ l then 1 else values.getD i 0 := by
  induction l generalizing values with
  | nil => simp
  | cons a rest ih =>
    have ha := hl a (by simp)
    have hrest : ∀ b ∈ rest, 0 ≤ b ∧ b.toNat < (values.set a.toNat 1).length := by
      intro b hb
      rw [List.length_set]
      exact hl b (by simp [hb])
    rw [List.foldl_cons, ih _ hrest]
    by_cases hmem : (i : Int) ∈ rest
    · simp [hmem]
    · by_cases hia : (i : Int) = a
      · rw [if_neg hmem, if_pos (show (i : Int) ∈ a :: rest from by simp [hia])]
        have hi : a.toNat = i := by omega
        have hbound : i < values.length := by
          rw [← hi]
          exact ha.2
        rw [List.getD_eq_getElem?_getD, hi, List.getElem?_set_self hbound]
        rfl
      · rw [if_neg hmem, if_neg (show (i : Int) ∉ a :: rest from by simp [hia, hmem])]
        have hne : a.toNat ≠ i := by omega
        rw [List.getD_eq_getElem?_getD, List.getElem?_set_ne hne, List.getD_eq_getElem?_getD]

theorem dedupStarred_subset (l : List StarredConfig) (seen : List String) :
    ∀ e ∈ dedupStarred l seen, ∃ c ∈ l,
      e = { c with id := normalizeSearch c.search, search := normalizeSearch c.search } := by
  induction l generalizing seen with
  | nil => simp [dedupStarred]
  | cons item rest ih =>
    intro e he
    unfold dedupStarred at he
    by_cases h1 : normalizeSearch item.search = ""
    · rw [if_pos h1] at he
      rcases ih _ e he with ⟨c, hc, hec⟩
      exact ⟨c, by simp [hc], hec⟩
    · rw [if_neg h1] at he
      by_cases h2 : normalizeSearch item.search ∈ seen
      · rw [if_pos h2] at he
        rcases ih _ e he with ⟨c, hc, hec⟩
        exact ⟨c, by simp [hc], hec⟩
      · rw [if_neg h2] at he
        rcases List.mem_cons.mp he with rfl | he
        · exact ⟨item, by simp, rfl⟩
        · rcases ih _ e he with ⟨c, hc, hec⟩
          exact ⟨c, by simp [hc], hec⟩

theorem dedupStarred_nodup_ids (l : List StarredConfig) (seen : List String) :
    (∀ e ∈ dedupStarred l seen, e.id ∉ seen) ∧
      List.Pairwise (fun a b => a.id ≠ b.id) (dedupStarred l seen) := by
  induction l generalizing seen with
  | nil => simp [dedupStarred]
  | cons item rest ih =>
    unfold dedupStarred
    by_cases h1 : normalizeSearch item.search = ""
    · rw [if_pos h1]
      exact ih seen
    · rw [if_neg h1]
      by_cases h2 : normalizeSearch item.search ∈ seen
      · rw [if_pos h2]
        exact ih seen
      · rw [if_neg h2]
        obtain ⟨hnotin, hpairwise⟩ := ih (normalizeSearch item.search :: seen)
        constructor
        · intro e he
          rcases List.mem_cons.mp he with rfl | he
          · exact h2
          · intro hcontra
            exact hnotin e he (List.mem_cons_of_mem _ hcontra)
        · rw [List.pairwise_cons]
          refine ⟨?_, hpairwise⟩
          intro e he hcontra
          exact hnotin e he (by rw [← hcontra]; exact List.mem_cons_self _ _)

theorem dedupStarred_first_wins (l : List StarredConfig) (seen : List String) :
    ∀ e ∈ dedupStarred l seen,
      e.id ≠ "" ∧ e.id ∉ seen ∧
      ∃ c, l.find? (fun c2 => normalizeSearch c2.search == e.id) = some c ∧
        e = { c with id := normalizeSearch c.search, search := normalizeSearch c.search } := by
  induction l generalizing seen with
  | nil => simp [dedupStarred]
  | cons item rest ih =>
    intro e he
    unfold dedupStarred at he
    by_cases h1 : normalizeSearch item.search = ""
    · rw [if_pos h1] at he
      obtain ⟨hne, hnotin, c, hfind, hec⟩ := ih seen e he
      refine ⟨hne, hnotin, c, ?_, hec⟩
      rw [List.find?_cons_of_neg _ ?_, hfind]
      simp only [h1, beq_iff_eq]
      exact fun hcontra => hne hcontra.symm
    · rw [if_neg h1] at he
      by_cases h2 : normalizeSearch item.search ∈ seen
      · rw [if_pos h2] at he
        obtain ⟨hne, hnotin, c, hfind, hec⟩ := ih seen e he
        refine ⟨hne, hnotin, c, ?_, hec⟩
        rw [List.find?_cons_of_neg _ ?_, hfind]
        simp only [beq_iff_eq]
        intro hcontra
        exact hnotin (hcontra ▸ h2)
      · rw [if_neg h2] at he
        rcases List.mem_cons.mp he with rfl | he
        · refine ⟨by simpa using h1, by simpa using h2, item, ?_, rfl⟩
          rw [List.find?_cons_of_pos _ (by simp)]
        · obtain ⟨hne, hnotin, c, hfind, hec⟩ := ih (normalizeSearch item.search :: seen) e he
          have hid : e.id ≠ normalizeSearch item.search := fun hcontra =>
            hnotin (hcontra ▸ List.mem_cons_self _ _)
          refine ⟨hne, fun hcontra => hnotin (List.mem_cons_of_mem _ hcontra), c, ?_, hec⟩
          rw [List.find?_cons_of_neg _ ?_, hfind]
          simp only [beq_iff_eq]
          exact fun hcontra => hid hcontra.symm

theorem length_foldl_setOne (l : List Int) (values : List Nat) :
    (l.foldl (fun vs a => vs.set a.toNat 1) values).length = values.length := by
  induction l generalizing values with
  | nil => rfl
  | cons a rest ih => rw [List.foldl_cons, ih, List.length_set]

theorem getD_bit_cases (row : List Nat) (hrow : ∀ v ∈ row, v = 0 ∨ v = 1) (j : Nat) :
    row.getD j 0 = 0 ∨ row.getD j 0 = 1 := by
  rw [List.getD_eq_getElem?_getD]
  cases h : row[j]? with
  | none => simp
  | some v => simpa using hrow v (List.getElem?_mem h)

/-- C1: for every rule in [0,255] and every row of length n >= 1 (cell values
0 or 1), one generation step maps every index i to
(rule >> (left*4 + current*2 + right)) & 1 with left = row[(i-1+n) mod n],
current = row[i], right = row[(i+1) mod n] (ring wrap-around), each neighbor
read from the same prior row, so the update is synchronous. -/
theorem C1_synchronous_ring_step (rule : Nat) (row : List Nat) (i : Nat)
    (_hrule : rule ≤ 255) (hrow : ∀ v ∈ row, v = 0 ∨ v = 1) (_hn : 1 ≤ row.length)
    (hi : i < row.length) :
    (stepRow rule 0 row).length = row.length ∧
    (stepRow rule 0 row).getD i 0
      = rule >>> (row.getD ((i + row.length - 1) % row.length) 0 * 4
          + row.getD i 0 * 2 + row.getD ((i + 1) % row.length) 0) &&& 1 := by
  refine ⟨stepRow_length .., ?_⟩
  rw [stepRow_getD rule 0 row i hi]
  exact applyElementaryRule_arith rule _ _ _ (getD_bit_cases row hrow _)
    (getD_bit_cases row hrow _) (getD_bit_cases row hrow _)

theorem C1_witness :
    (stepRow 22 0 [1, 0, 0]).length = ([1, 0, 0] : List Nat).length ∧
    (stepRow 22 0 [1, 0, 0]).getD 0 0
      = 22 >>> (([1, 0, 0] : List Nat).getD ((0 + ([1, 0, 0] : List Nat).length - 1)
            % ([1, 0, 0] : List Nat).length) 0 * 4
          + ([1, 0, 0] : List Nat).getD 0 0 * 2
          + ([1, 0, 0] : List Nat).getD ((0 + 1) % ([1, 0, 0] : List Nat).length) 0) &&& 1 :=
  C1_synchronous_ring_step 22 [1, 0, 0] 0 (by decide) (by decide) (by decide) (by decide)

/-- C2: for every totalItems in [1,300] and every list S of indices inside
[0,totalItems), decoding the encoded seed bitset succeeds and yields the
strictly ascending list whose members are exactly the members of S (that
is, the sorted deduplicated elements of S). -/
theorem C2_seed_bitset_roundtrip (totalItems : Int) (S : List Int)
    (h1 : 1 ≤ totalItems) (h2 : totalItems ≤ 300)
    (hS : ∀ s ∈ S, 0 ≤ s ∧ s < totalItems) :
    ∃ l, decodeSeedBitset totalItems (encodeSeedBitset totalItems S) = some l ∧
      List.Pairwise (· < ·) l ∧ ∀ i : Int, i ∈ l ↔ i ∈ S := by
  have hclamp : clampInt totalItems 1 300 = totalItems := clampInt_eq_self _ _ _ h1 h2
  have h8 : totalItems.toNat ≤ 8 * ((totalItems.toNat + 7) / 8) := by omega
  have hencode : encodeSeedBitset totalItems S
      = base64UrlEncode ((uniqSortedIndices S totalItems).foldl
          (fun bs idx => setSeedBit bs idx.toNat)
          (List.replicate ((totalItems.toNat + 7) / 8) 0)) := by
    simp only [encodeSeedBitset, hclamp]
  have hfold : (uniqSortedIndices S totalItems).foldl
        (fun bs idx => setSeedBit bs idx.toNat)
        (List.replicate ((totalItems.toNat + 7) / 8) 0)
      = ((uniqSortedIndices S totalItems).map Int.toNat).foldl setSeedBit
        (List.replicate ((totalItems.toNat + 7) / 8) 0) :=
    (List.foldl_map Int.toNat setSeedBit _ _).symm
  have huniq : ∀ a ∈ uniqSortedIndices S totalItems, 0 ≤ a ∧ a < totalItems := by
    intro a ha
    have := (mem_uniqSortedIndices S totalItems a).mp ha
    exact ⟨this.2.1, this.2.2⟩
  have hbounds : ∀ a ∈ (uniqSortedIndices S totalItems).map Int.toNat,
      a / 8 < (List.replicate ((totalItems.toNat + 7) / 8) (0 : Nat)).length := by
    intro a ha
    rcases List.mem_map.mp ha with ⟨b, hb, rfl⟩
    have hbb := huniq b hb
    rw [List.length_replicate]
    refine byteLen_bound totalItems.toNat b.toNat ?_
    omega
  have hbytes256 : ∀ b ∈ (uniqSortedIndices S totalItems).foldl
      (fun bs idx => setSeedBit bs idx.toNat)
      (List.replicate ((totalItems.toNat + 7) / 8) 0), b < 256 := by
    rw [hfold]
    exact bytes_lt_foldl_setSeedBit _ _ (by simp)
  have hdecode := base64UrlDecode_encode _ hbytes256
  rw [hencode, decodeSeedBitset_some _ _ _ hdecode, hclamp]
  refine ⟨_, rfl, pairwise_decodeList _ _, ?_⟩
  intro i
  rw [mem_decodeList]
  have hbit : ∀ idx : Nat,
      getSeedBit ((uniqSortedIndices S totalItems).foldl
          (fun bs idx => setSeedBit bs idx.toNat)
          (List.replicate ((totalItems.toNat + 7) / 8) 0)) idx
        = if idx ∈ (uniqSortedIndices S totalItems).map Int.toNat then 1 else 0 := by
    intro idx
    rw [hfold, getSeedBit_foldl _ _ idx hbounds, getSeedBit_replicate_zero]
  constructor
  · rintro ⟨h0, hn, hone⟩
    rw [hbit i.toNat] at hone
    have hmem : i.toNat ∈ (uniqSortedIndices S totalItems).map Int.toNat := by
      by_contra hcontra
      rw [if_neg hcontra] at hone
      omega
    rcases List.mem_map.mp hmem with ⟨b, hb, hbi⟩
    have hbb := huniq b hb
    have : b = i := by omega
    subst this
    exact ((mem_uniqSortedIndices S totalItems b).mp hb).1
  · intro hiS
    have hrange := hS i hiS
    have hmem : i ∈ uniqSortedIndices S totalItems :=
      (mem_uniqSortedIndices S totalItems i).mpr ⟨hiS, hrange.1, hrange.2⟩
    have hmem' : i.toNat ∈ (uniqSortedIndices S totalItems).map Int.toNat :=
      List.mem_map.mpr ⟨i, hmem, rfl⟩
    refine ⟨hrange.1, by omega, ?_⟩
    rw [hbit i.toNat, if_pos hmem']

theorem C2_witness :
    ∃ l, decodeSeedBitset 10 (encodeSeedBitset 10 [7, 3, 7]) = some l ∧
      List.Pairwise (· < ·) l ∧ ∀ i : Int, i ∈ l ↔ i ∈ ([7, 3, 7] : List Int) :=
  C2_seed_bitset_roundtrip 10 [7, 3, 7] (by decide) (by decide) (by decide)

/-- C3: after starting a run with a positive generation bound g, the engine
is Running exactly while the generation pointer is below g, the pointer
after k ticks is min k g (so it never exceeds g), and the history holds
min k g + 1 rows; in particular when the pointer reaches g the engine has
transitioned to Idle with exactly g + 1 rows of history. -/
theorem C3_generation_bound (rule boundaryValue : Nat) (blocks : List Nat) (g k : Nat)
    (hg : 1 ≤ g) :
    (tickN rule g boundaryValue k (engineStart blocks)).generation = min k g ∧
    ((tickN rule g boundaryValue k (engineStart blocks)).isRunning = true ↔ k < g) ∧
    (tickN rule g boundaryValue k (engineStart blocks)).blocksHistory.length = min k g + 1 := by
  obtain ⟨h1, h2, h3, _⟩ := engine_invariant rule boundaryValue blocks g hg k
  refine ⟨h1, ?_, h3⟩
  rw [h2]
  simp

theorem C3_witness :
    (tickN 22 5 0 5 (engineStart [1, 0, 0, 0])).generation = min 5 5 ∧
    ((tickN 22 5 0 5 (engineStart [1, 0, 0, 0])).isRunning = true ↔ 5 < 5) ∧
    (tickN 22 5 0 5 (engineStart [1, 0, 0, 0])).blocksHistory.length = min 5 5 + 1 :=
  C3_generation_bound 22 0 [1, 0, 0, 0] 5 5 (by decide)

/-- C4: with a non-empty explicit seed list (and the default boundary fill
value 0), generation 0 has value 1 exactly at the in-range positions named
by the seed list (deduplicated, out-of-range indices discarded) and 0
everywhere else, independent of the random shuffle oracle. -/
theorem C4_explicit_seed_row (totalItems : Nat) (initialOnes : Int) (seeds : List Int)
    (shuffled : List Nat) (i : Nat) (hne : seeds ≠ []) (hi : i < totalItems) :
    (makeInitialValues totalItems initialOnes 0 (some seeds) shuffled).length = totalItems ∧
    (makeInitialValues totalItems initialOnes 0 (some seeds) shuffled).getD i 0
      = if (i : Int) ∈ seeds then 1 else 0 := by
  have ht0 : ¬totalItems = 0 := by omega
  have hlen' : seeds.length > 0 := List.length_pos.mpr hne
  have hbody : makeInitialValues totalItems initialOnes 0 (some seeds) shuffled
      = (setFromList (seeds.filter fun idx =>
          decide (0 ≤ idx) && decide (idx < (totalItems : Int)))).foldl
        (fun vs i => vs.set i.toNat 1) (List.replicate totalItems 0) := by
    simp only [makeInitialValues, if_neg ht0, if_pos hlen']
  rw [hbody]
  have hl : ∀ a ∈ setFromList (seeds.filter fun idx =>
      decide (0 ≤ idx) && decide (idx < (totalItems : Int))),
      0 ≤ a ∧ a.toNat < (List.replicate totalItems (0 : Nat)).length := by
    intro a ha
    rw [mem_setFromList, List.mem_filter] at ha
    have h1 : 0 ≤ a := by simpa using (Bool.and_elim_left ha.2)
    have h2 : a < (totalItems : Int) := by simpa using (Bool.and_elim_right ha.2)
    rw [List.length_replicate]
    exact ⟨h1, by omega⟩
  constructor
  · rw [length_foldl_setOne, List.length_replicate]
  · rw [getD_foldl_setOne _ _ i hl]
    have hmem : ((i : Int) ∈ setFromList (seeds.filter fun idx =>
        decide (0 ≤ idx) && decide (idx < (totalItems : Int)))) ↔ (i : Int) ∈ seeds := by
      rw [mem_setFromList, List.mem_filter]
      constructor
      · exact fun h => h.1
      · intro h
        refine ⟨h, ?_⟩
        simp only [Bool.and_eq_true, decide_eq_true_eq]
        omega
    by_cases hin : (i : Int) ∈ seeds
    · rw [if_pos (hmem.mpr hin), if_pos hin]
    · rw [if_neg (fun hcontra => hin (hmem.mp hcontra)), if_neg hin,
        List.getD_eq_getElem?_getD, List.getElem?_replicate, if_pos hi]
      rfl

theorem C4_witness :
    (makeInitialValues 6 1 0 (some [4, 2, 4, -1, 9]) []).length = 6 ∧
    (makeInitialValues 6 1 0 (some [4, 2, 4, -1, 9]) []).getD 2 0
      = if (2 : Int) ∈ ([4, 2, 4, -1, 9] : List Int) then 1 else 0 :=
  C4_explicit_seed_row 6 1 [4, 2, 4, -1, 9] [] 2 (by decide) (by decide)

/-- C5: for any parsed location search parameters, r, w, g and d default to
22, 118, 100 and 10 when missing and are always clamped into [0,255],
[1,300], [1,500] and [10,5000]; the seedIndices field is present exactly
when the s parameter is present and decodes against the resolved
totalItems (a decoded empty seed set is the present empty list, while an
absent or undecodable s omits the field). -/
theorem C5_parse_defaults_clamps_seed (params : List (String × String)) :
    (getParam params "r" = none → (parseShareableStateFromLocation params).ruleDecimal = 22) ∧
    (getParam params "w" = none → (parseShareableStateFromLocation params).totalItems = 118) ∧
    (getParam params "g" = none → (parseShareableStateFromLocation params).generations = 100) ∧
    (getParam params "d" = none → (parseShareableStateFromLocation params).delay = 10) ∧
    (0 ≤ (parseShareableStateFromLocation params).ruleDecimal
      ∧ (parseShareableStateFromLocation params).ruleDecimal ≤ 255) ∧
    (1 ≤ (parseShareableStateFromLocation params).totalItems
      ∧ (parseShareableStateFromLocation params).totalItems ≤ 300) ∧
    (1 ≤ (parseShareableStateFromLocation params).generations
      ∧ (parseShareableStateFromLocation params).generations ≤ 500) ∧
    (10 ≤ (parseShareableStateFromLocation params).delay
      ∧ (parseShareableStateFromLocation params).delay ≤ 5000) ∧
    (∀ l, (parseShareableStateFromLocation params).seedIndices = some l ↔
      ∃ s, getParam params "s" = some s ∧
        decodeSeedBitset (parseShareableStateFromLocation params).totalItems s = some l) := by
  refine ⟨?_, ?_, ?_, ?_, clampInt_mem_of_le _ _ _ (by decide),
    clampInt_mem_of_le _ _ _ (by decide), clampInt_mem_of_le _ _ _ (by decide),
    clampInt_mem_of_le _ _ _ (by decide), ?_⟩
  · intro h
    show clampInt (parseIntParam params "r" 22) 0 255 = 22
    unfold parseIntParam
    rw [h]
    decide
  · intro h
    show clampInt (parseIntParam params "w" 118) 1 300 = 118
    unfold parseIntParam
    rw [h]
    decide
  · intro h
    show clampInt (parseIntParam params "g" 100) 1 500 = 100
    unfold parseIntParam
    rw [h]
    decide
  · intro h
    show clampInt (parseIntParam params "d" 10) 10 5000 = 10
    unfold parseIntParam
    rw [h]
    decide
  · intro l
    have hseed : (parseShareableStateFromLocation params).seedIndices
        = match getParam params "s" with
          | none => none
          | some seedEncoded =>
            decodeSeedBitset (parseShareableStateFromLocation params).totalItems seedEncoded :=
      rfl
    cases hs : getParam params "s" with
    | none =>
      rw [hseed, hs]
      simp [hs]
    | some s =>
      rw [hseed, hs]
      constructor
      · intro hdec
        exact ⟨s, rfl, hdec⟩
      · rintro ⟨s2, hs2, hdec⟩
        cases hs2
        exact hdec

theorem C5_witness :
    (parseShareableStateFromLocation [("s", "AA")]).ruleDecimal = 22 ∧
    (parseShareableStateFromLocation [("s", "AA")]).seedIndices = some [] := by
  refine ⟨(C5_parse_defaults_clamps_seed [("s", "AA")]).1 rfl, ?_⟩
  exact ((C5_parse_defaults_clamps_seed [("s", "AA")]).2.2.2.2.2.2.2.2 []).mpr
    ⟨"AA", rfl, by decide⟩

/-- C6 counterexample: with totalItems = 301 (outside [1,300]) and a payload
whose packed bit 300 is set, the decode succeeds but omits index 300 even
though 300 lies in [0,totalItems) and its packed bit is set, because the
code clamps totalItems to 300 before scanning; so the claim as stated over
every totalItems fails. -/
theorem C6_counterexample :
    decodeSeedBitset 301 (String.mk (List.replicate 48 'A') ++ "AAg") = some [] ∧
    base64UrlDecode (String.mk (List.replicate 48 'A') ++ "AAg")
      = some (List.replicate 37 0 ++ [8]) ∧
    getSeedBit (List.replicate 37 0 ++ [8]) 300 = 1 ∧
    (0 : Int) ≤ 300 ∧ (300 : Int) < 301 ∧ (300 : Int) ∉ ([] : List Int) := by
  refine ⟨by decide, by decide, by decide, by decide, by decide, by decide⟩

/-- C6 (amended): decodeSeedBitset returns null exactly when the base64
decode (after the URL-safe substitution and padding restoration) fails, and
never throws; on success it returns, in strictly ascending order, every
index in [0, clamp(totalItems, 1, 300)) whose packed bit is set. -/
theorem C6_amended_decode (totalItems : Int) (encoded : String) :
    (decodeSeedBitset totalItems encoded = none ↔ base64UrlDecode encoded = none) ∧
    (∀ bytes l, base64UrlDecode encoded = some bytes →
      decodeSeedBitset totalItems encoded = some l →
      List.Pairwise (· < ·) l ∧
        ∀ i : Int, i ∈ l ↔ 0 ≤ i ∧ i < clampInt totalItems 1 300
          ∧ getSeedBit bytes i.toNat = 1) := by
  refine ⟨decodeSeedBitset_none_iff totalItems encoded, ?_⟩
  intro bytes l hb hd
  rw [decodeSeedBitset_some _ _ _ hb] at hd
  injection hd with hd
  subst hd
  refine ⟨pairwise_decodeList _ _, ?_⟩
  intro i
  rw [mem_decodeList]
  have hpos : 1 ≤ clampInt totalItems 1 300 := (clampInt_mem_of_le _ _ _ (by decide)).1
  constructor
  · rintro ⟨h0, hlt, hbit⟩
    exact ⟨h0, by omega, hbit⟩
  · rintro ⟨h0, hlt, hbit⟩
    exact ⟨h0, by omega, hbit⟩

theorem C6_witness :
    List.Pairwise (· < ·) ([] : List Int) ∧
    ∀ i : Int, i ∈ ([] : List Int) ↔ 0 ≤ i ∧ i < clampInt 1 1 300
      ∧ getSeedBit [0] i.toNat = 1 :=
  (C6_amended_decode 1 "AA").2 [0] [] (by decide) (by decide)

set_option maxRecDepth 8192 in
/-- C7: to8BitBinary returns the 8-bit MSB-first zero-padded binary string
for every integer in [0,255] (character k of the result is bit 7 - k), and
fails with the InvalidRuleError message for every integer outside [0,255];
non-integer doubles lie outside the integer embedding. -/
theorem C7_to8BitBinary (d : Int) :
    (0 ≤ d → d ≤ 255 →
      to8BitBinary d = Except.ok (String.mk ((List.range 8).map
        fun k => if d.toNat.testBit (7 - k) then '1' else '0'))) ∧
    (d < 0 ∨ 255 < d →
      to8BitBinary d
        = Except.error ("Rule must be an integer in [0, 255]. Got: " ++ toString d)) := by
  constructor
  · intro h0 h255
    have hgen : ∀ n : Nat, n < 256 → to8BitBinary (n : Int)
        = Except.ok (String.mk ((List.range 8).map
            fun k => if n.testBit (7 - k) then '1' else '0')) := by decide
    have hinst := hgen d.toNat (by omega)
    rw [Int.toNat_of_nonneg h0] at hinst
    exact hinst
  · intro h
    unfold to8BitBinary
    rw [if_pos h]

theorem C7_witness :
    to8BitBinary 22 = Except.ok "00010110" ∧
    to8BitBinary 255 = Except.ok "11111111" ∧
    to8BitBinary 0 = Except.ok "00000000" ∧
    to8BitBinary 256 = Except.error "Rule must be an integer in [0, 255]. Got: 256" ∧
    to8BitBinary (-1) = Except.error "Rule must be an integer in [0, 255]. Got: -1" := by
  refine ⟨?_, ?_, ?_, ?_, ?_⟩
  · rw [(C7_to8BitBinary 22).1 (by decide) (by decide)]
    decide
  · rw [(C7_to8BitBinary 255).1 (by decide) (by decide)]
    decide
  · rw [(C7_to8BitBinary 0).1 (by decide) (by decide)]
    decide
  · rw [(C7_to8BitBinary 256).2 (by decide)]
    decide
  · rw [(C7_to8BitBinary (-1)).2 (by decide)]
    decide

/-- C8: buildShareableSearch clamps every numeric field before serializing:
the canonical out-of-range example serializes with r=255, w=1, g=500, d=10,
and for every input the serialized r, w, g, d values are the clamped ones,
lying in [0,255], [1,300], [1,500] and [10,5000]. -/
theorem C8_build_clamps (state : ShareableAutomatonState) :
    buildShareableSearch (ShareableAutomatonState.mk 999 0 99999 1 [])
      = "?r=255&w=1&g=500&d=10&s=AA" ∧
    ∃ r w g d : Int, shareEntries state
        = [("r", toString r), ("w", toString w), ("g", toString g), ("d", toString d),
           ("s", encodeSeedBitset state.totalItems state.seedIndices)] ∧
      0 ≤ r ∧ r ≤ 255 ∧ 1 ≤ w ∧ w ≤ 300 ∧ 1 ≤ g ∧ g ≤ 500 ∧ 10 ≤ d ∧ d ≤ 5000 := by
  refine ⟨by decide, clampInt state.ruleDecimal 0 255, clampInt state.totalItems 1 300,
    clampInt state.generations 1 500, clampInt state.delay 10 5000, rfl, ?_⟩
  have h1 := clampInt_mem_of_le state.ruleDecimal 0 255 (by decide)
  have h2 := clampInt_mem_of_le state.totalItems 1 300 (by decide)
  have h3 := clampInt_mem_of_le state.generations 1 500 (by decide)
  have h4 := clampInt_mem_of_le state.delay 10 5000 (by decide)
  exact ⟨h1.1, h1.2, h2.1, h2.2, h3.1, h3.2, h4.1, h4.2⟩

/-- C9 counterexample: two structurally valid persisted entries share the
canonical id "?a", the first with createdAt 1 and the second with
createdAt 99; the load keeps the first occurrence in persisted order, not
the duplicate with the most recent createdAt, so the claim as stated
fails. -/
theorem C9_counterexample :
    loadStarredConfigs (some (JSValue.arr
      [JSValue.obj [("id", JSValue.str "x"), ("search", JSValue.str "?a"),
         ("ruleDecimal", JSValue.num (some 0)), ("createdAt", JSValue.num (some 1))],
       JSValue.obj [("id", JSValue.str "y"), ("search", JSValue.str "?a"),
         ("ruleDecimal", JSValue.num (some 0)), ("createdAt", JSValue.num (some 99))]]))
      = [{ id := "?a", search := "?a", ruleDecimal := 0, createdAt := 1 }] ∧
    toStarredConfig (JSValue.obj [("id", JSValue.str "y"), ("search", JSValue.str "?a"),
        ("ruleDecimal", JSValue.num (some 0)), ("createdAt", JSValue.num (some 99))])
      = some { id := "y", search := "?a", ruleDecimal := 0, createdAt := 99 } ∧
    (1 : Int) ≠ 99 := by
  refine ⟨by decide, by decide, by decide⟩

/-- C9 (amended): for every persisted value (malformed JSON and arbitrary
array contents included) the loaded list contains only entries originating
from structurally valid persisted elements (normalized to their canonical
id), contains at most one entry per canonical id with the first occurrence
in persisted order winning among duplicates (each loaded entry is built
from the first structurally valid element whose canonical id matches,
which find? returns), is sorted newest-first by createdAt, and has length
at most 50. -/
theorem C9_amended_load (parsed : Option JSValue) :
    (∀ e ∈ loadStarredConfigs parsed, ∃ v c, v ∈ jsElems parsed ∧ toStarredConfig v = some c ∧
        e = { c with id := normalizeSearch c.search, search := normalizeSearch c.search }) ∧
    (∀ e ∈ loadStarredConfigs parsed, ∃ c,
        ((jsElems parsed).filterMap toStarredConfig).find?
            (fun c2 => normalizeSearch c2.search == e.id) = some c ∧
        e = { c with id := normalizeSearch c.search, search := normalizeSearch c.search }) ∧
    List.Pairwise (fun a b => a.id ≠ b.id) (loadStarredConfigs parsed) ∧
    List.Pairwise (fun a b => b.createdAt ≤ a.createdAt) (loadStarredConfigs parsed) ∧
    (loadStarredConfigs parsed).length ≤ 50 := by
  have hmain : ∀ elems : List JSValue,
      (∀ e ∈ loadStarredConfigs (some (JSValue.arr elems)), ∃ v c, v ∈ elems ∧
          toStarredConfig v = some c ∧
          e = { c with id := normalizeSearch c.search, search := normalizeSearch c.search }) ∧
      (∀ e ∈ loadStarredConfigs (some (JSValue.arr elems)), ∃ c,
          (elems.filterMap toStarredConfig).find?
              (fun c2 => normalizeSearch c2.search == e.id) = some c ∧
          e = { c with id := normalizeSearch c.search, search := normalizeSearch c.search }) ∧
      List.Pairwise (fun a b => a.id ≠ b.id) (loadStarredConfigs (some (JSValue.arr elems))) ∧
      List.Pairwise (fun a b => b.createdAt ≤ a.createdAt)
        (loadStarredConfigs (some (JSValue.arr elems))) ∧
      (loadStarredConfigs (some (JSValue.arr elems))).length ≤ 50 := by
    intro elems
    have hload : loadStarredConfigs (some (JSValue.arr elems))
        = (List.insertionSort (fun a b => b.createdAt ≤ a.createdAt)
            (dedupStarred (elems.filterMap toStarredConfig) [])).take 50 := rfl
    have hperm := List.perm_insertionSort (fun a b : StarredConfig => b.createdAt ≤ a.createdAt)
      (dedupStarred (elems.filterMap toStarredConfig) [])
    refine ⟨?_, ?_, ?_, ?_, ?_⟩
    · intro e he
      rw [hload] at he
      have he2 := hperm.mem_iff.mp (List.mem_of_mem_take he)
      rcases dedupStarred_subset _ _ e he2 with ⟨c, hc, hec⟩
      rcases List.mem_filterMap.mp hc with ⟨v, hv, hvc⟩
      exact ⟨v, c, hv, hvc, hec⟩
    · intro e he
      rw [hload] at he
      have he2 := hperm.mem_iff.mp (List.mem_of_mem_take he)
      obtain ⟨_, _, c, hfind, hec⟩ := dedupStarred_first_wins _ [] e he2
      exact ⟨c, hfind, hec⟩
    · rw [hload]
      refine List.Pairwise.sublist (List.take_sublist _ _) ?_
      refine (List.Perm.pairwise_iff (fun h => Ne.symm h) hperm).mpr ?_
      exact (dedupStarred_nodup_ids _ _).2
    · rw [hload]
      refine List.Pairwise.sublist (List.take_sublist _ _) ?_
      exact List.sorted_insertionSort _ _
    · rw [hload, List.length_take]
      omega
  match parsed with
  | some (JSValue.arr elems) => exact hmain elems
  | none => exact ⟨by simp [loadStarredConfigs], by simp [loadStarredConfigs],
      by simp [loadStarredConfigs], by simp [loadStarredConfigs], by simp [loadStarredConfigs]⟩
  | some JSValue.null => exact ⟨by simp [loadStarredConfigs], by simp [loadStarredConfigs],
      by simp [loadStarredConfigs], by simp [loadStarredConfigs], by simp [loadStarredConfigs]⟩
  | some (JSValue.bool b) => exact ⟨by simp [loadStarredConfigs], by simp [loadStarredConfigs],
      by simp [loadStarredConfigs], by simp [loadStarredConfigs], by simp [loadStarredConfigs]⟩
  | some (JSValue.num n) => exact ⟨by simp [loadStarredConfigs], by simp [loadStarredConfigs],
      by simp [loadStarredConfigs], by simp [loadStarredConfigs], by simp [loadStarredConfigs]⟩
  | some (JSValue.str s) => exact ⟨by simp [loadStarredConfigs], by simp [loadStarredConfigs],
      by simp [loadStarredConfigs], by simp [loadStarredConfigs], by simp [loadStarredConfigs]⟩
  | some (JSValue.obj fields) => exact ⟨by simp [loadStarredConfigs], by simp [loadStarredConfigs],
      by simp [loadStarredConfigs], by simp [loadStarredConfigs], by simp [loadStarredConfigs]⟩

theorem C9_witness :
    (∀ e ∈ loadStarredConfigs (some (JSValue.arr
        [JSValue.obj [("id", JSValue.str "x"), ("search", JSValue.str "?a"),
           ("ruleDecimal", JSValue.num (some 0)), ("createdAt", JSValue.num (some 1))],
         JSValue.obj [("id", JSValue.str "y"), ("search", JSValue.str "?a"),
           ("ruleDecimal", JSValue.num (some 0)), ("createdAt", JSValue.num (some 99))]])), ∃ c,
        ((jsElems (some (JSValue.arr
          [JSValue.obj [("id", JSValue.str "x"), ("search", JSValue.str "?a"),
             ("ruleDecimal", JSValue.num (some 0)), ("createdAt", JSValue.num (some 1))],
           JSValue.obj [("id", JSValue.str "y"), ("search", JSValue.str "?a"),
             ("ruleDecimal", JSValue.num (some 0)),
             ("createdAt", JSValue.num (some 99))]]))).filterMap toStarredConfig).find?
            (fun c2 => normalizeSearch c2.search == e.id) = some c ∧
        e = { c with id := normalizeSearch c.search, search := normalizeSearch c.search }) ∧
    (loadStarredConfigs (some (JSValue.arr
        [JSValue.obj [("id", JSValue.str "x"), ("search", JSValue.str "?a"),
           ("ruleDecimal", JSValue.num (some 0)), ("createdAt", JSValue.num (some 1))],
         JSValue.obj [("id", JSValue.str "y"), ("search", JSValue.str "?a"),
           ("ruleDecimal", JSValue.num (some 0)),
           ("createdAt", JSValue.num (some 99))]]))).length ≤ 50 := by
  have h := C9_amended_load (some (JSValue.arr
    [JSValue.obj [("id", JSValue.str "x"), ("search", JSValue.str "?a"),
       ("ruleDecimal", JSValue.num (some 0)), ("createdAt", JSValue.num (some 1))],
     JSValue.obj [("id", JSValue.str "y"), ("search", JSValue.str "?a"),
       ("ruleDecimal", JSValue.num (some 0)), ("createdAt", JSValue.num (some 99))]]))
  exact ⟨h.2.1, h.2.2.2.2⟩

/-- C10: for every totalItems in [1,300] and every string accepted by the
base64url decoder, decodeSeedBitset succeeds regardless of whether the
payload is shorter or longer than ceil(totalItems/8): absent bytes read as
zero, bits at or beyond totalItems are ignored, and every returned index
lies in [0,totalItems). -/
theorem C10_decode_tolerant (totalItems : Int) (s : String) (bytes : List Nat)
    (h1 : 1 ≤ totalItems) (h2 : totalItems ≤ 300) (hb : base64UrlDecode s = some bytes) :
    ∃ l, decodeSeedBitset totalItems s = some l ∧
      (∀ i ∈ l, 0 ≤ i ∧ i < totalItems) ∧
      (∀ i : Int, i ∈ l ↔ 0 ≤ i ∧ i < totalItems ∧ getSeedBit bytes i.toNat = 1) := by
  have hclamp : clampInt totalItems 1 300 = totalItems := clampInt_eq_self _ _ _ h1 h2
  rw [decodeSeedBitset_some _ _ _ hb, hclamp]
  refine ⟨_, rfl, ?_, ?_⟩
  · intro i hi
    have := (mem_decodeList bytes totalItems.toNat i).mp hi
    exact ⟨this.1, by omega⟩
  · intro i
    rw [mem_decodeList]
    constructor
    · rintro ⟨h0, hlt, hbit⟩
      exact ⟨h0, by omega, hbit⟩
    · rintro ⟨h0, hlt, hbit⟩
      exact ⟨h0, by omega, hbit⟩

theorem C10_witness :
    ∃ l, decodeSeedBitset 10 "" = some l ∧
      (∀ i ∈ l, 0 ≤ i ∧ i < 10) ∧
      (∀ i : Int, i ∈ l ↔ 0 ≤ i ∧ i < 10 ∧ getSeedBit [] i.toNat = 1) :=
  C10_decode_tolerant 10 "" [] (by decide) (by decide) (by decide)
